import Mathlib

/-!
# Verification of `uptools` (budgeted streaming iteration over columnar files)

Shallow embedding of `src/uptools/__init__.py`.  The external collaborators
(`uproot`'s per-file column-batch iteration, `seutils`' remote listing) are
modelled as function parameters, exactly as the spec treats them (black boxes).
Python `None` is modelled by `Option`, Python exceptions by `Except`, Python
lists by `List`, and the integer arithmetic of budgets by `Int` (budgets go
negative in the source).  `dict` column batches are modelled as association
lists, which preserves the iteration order Python dicts guarantee.
-/

namespace Uptools

/-- A column batch, as the code sees it: a mapping (in insertion order) from
column key to a column, i.e. a list of values.  Models the `dict`s produced by
`uproot`'s `t.iterate`. -/
abbrev Arrays (κ ν : Type) := List (κ × List ν)

/-- `numentries(arrays)`: iterate over the dict's items and return `len(v)` of
the first item; the Python `for` loop falling through (no columns) returns
`None`. -/
def numentries {κ ν : Type} (arrays : Arrays κ ν) : Option Nat :=
  match arrays with
  | [] => none
  | (_, v) :: _ => some v.length

/-- `get_event(arrays, i)`: index every column at position `i`.  Python raises
on an out-of-range index; the model makes that observable as `none`. -/
def get_event {κ ν : Type} (arrays : Arrays κ ν) (i : Nat) : List (κ × Option ν) :=
  arrays.map (fun kv => (kv.1, kv.2.get? i))

/-- Python truthiness test `not (nmax)` on an `int`-or-`None` value:
`None` and `0` are falsy. -/
def falsy (nmax : Option Int) : Bool :=
  match nmax with
  | none => true
  | some n => n == 0

/-!
## `iter_arrays`

```python
def iter_arrays(rootfiles, nmax=None, treepath=None, **kwargs):
    ntodo = nmax
    for rootfile in format_rootfiles(rootfiles):
        f = uproot.open(rootfile)
        ...
        if not (nmax):
            yield from t.iterate(entrystop=nmax, **kwargs)
        else:
            for arrays in t.iterate(entrystop=ntodo, **kwargs):
                ntodo -= numentries(arrays)
                yield arrays
                if ntodo <= 0:
                    return
```

The external column-batch source (`uproot.open` + tree lookup + `t.iterate`)
is the parameter `ti : F → Option Int → List B`: given a file and the
`entrystop` argument it receives, it produces the finite batch sequence for
that file.  `cnt` is the record count of a batch (what `numentries` computes
on the real batches).  Batches are an abstract type `B`, exactly as the spec
treats them. -/

/-- The capped inner `for arrays in t.iterate(...)` loop of `iter_arrays` for
one file: decrement `ntodo` by each batch's record count, yield the batch,
stop everything once `ntodo <= 0`.  Returns the yielded batches, the final
`ntodo`, and whether the `return` statement was reached. -/
def iter_file {B : Type} (cnt : B → Nat) : List B → Int → List B × Int × Bool
  | [], ntodo => ([], ntodo, false)
  | b :: rest, ntodo =>
      let ntodo' := ntodo - (cnt b : Int)
      if ntodo' ≤ 0 then ([b], ntodo', true)
      else
        let r := iter_file cnt rest ntodo'
        (b :: r.1, r.2.1, r.2.2)

/-- The outer `for rootfile in ...` loop of `iter_arrays`, carrying the
mutable `ntodo`.  `ntodo` is only ever read in the non-falsy branch, where it
was initialised from `nmax = some n`. -/
def iter_arrays_go {F B : Type} (ti : F → Option Int → List B) (cnt : B → Nat)
    (nmax : Option Int) : List F → Int → List B
  | [], _ => []
  | f :: fs, ntodo =>
      if falsy nmax then
        ti f nmax ++ iter_arrays_go ti cnt nmax fs ntodo
      else
        let r := iter_file cnt (ti f (some ntodo)) ntodo
        if r.2.2 then r.1
        else r.1 ++ iter_arrays_go ti cnt nmax fs r.2.1

/-- `iter_arrays(rootfiles, nmax)` over an already-normalised list of files
(`format_rootfiles` passes a list argument through unchanged).  `ntodo = nmax`
initially; the `getD 0` is the arbitrary value carried, never read, when
`nmax` is falsy. -/
def iter_arrays {F B : Type} (ti : F → Option Int → List B) (cnt : B → Nat)
    (rootfiles : List F) (nmax : Option Int) : List B :=
  iter_arrays_go ti cnt nmax rootfiles (nmax.getD 0)

/-!
## `iter_arrays_weighted`

```python
def iter_arrays_weighted(N, crosssections, rootfiles, **kwargs):
    if len(crosssections) != len(rootfiles):
        raise Exception("Length of cross sections should be equal to number of passed rootfiles")
    norm = sum(crosssections)
    ns_float = [xs / norm * N for xs in crosssections]
    ns = [round(n) for n in ns_float]
    logger.info("Requested %s, doing %s: %s", N, sum(ns), ns)
    for n, this_rootfiles in zip(ns, rootfiles):
        if n == 0:
            continue
        yield from iter_arrays(this_rootfiles, nmax=n, **kwargs)
```

Python's float arithmetic is modelled over `ℚ`; Python's built-in `round`
rounds halves to the nearest even integer (banker's rounding). -/

/-- Python's built-in `round` to an integer: round to nearest, halves to the
nearest even integer. -/
def pyround (q : ℚ) : ℤ :=
  if q - ⌊q⌋ < 1/2 then ⌊q⌋
  else if (1:ℚ)/2 < q - ⌊q⌋ then ⌊q⌋ + 1
  else if ⌊q⌋ % 2 = 0 then ⌊q⌋ else ⌊q⌋ + 1

/-- The loop body of `iter_arrays_weighted`: `zip(ns, rootfiles)`, skipping
`n == 0` entries, otherwise delegating to `iter_arrays` with `nmax=n`. -/
def weighted_loop {F B : Type} (ti : F → Option Int → List B) (cnt : B → Nat) :
    List (Int × List F) → List B
  | [] => []
  | (n, rfs) :: rest =>
      (if n = 0 then [] else iter_arrays ti cnt rfs (some n)) ++ weighted_loop ti cnt rest

/-- `iter_arrays_weighted(N, crosssections, rootfiles)`: per-group sub-budgets
from the weights, then one budgeted `iter_arrays` run per non-zero group. -/
def iter_arrays_weighted {F B : Type} (ti : F → Option Int → List B) (cnt : B → Nat)
    (N : Int) (crosssections : List ℚ) (rootfiles : List (List F)) :
    Except String (List B) :=
  if crosssections.length ≠ rootfiles.length then
    .error "Length of cross sections should be equal to number of passed rootfiles"
  else
    let norm := crosssections.sum
    let ns_float := crosssections.map (fun xs => xs / norm * (N : ℚ))
    let ns := ns_float.map pyround
    .ok (weighted_loop ti cnt (ns.zip rootfiles))

/-- The list `ns` of per-group integer sub-budgets computed inside
`iter_arrays_weighted` (named so claims can speak about it). -/
def subbudgets (N : Int) (crosssections : List ℚ) : List Int :=
  (crosssections.map (fun xs => xs / crosssections.sum * (N : ℚ))).map pyround

/-!
## `iter_events`

```python
def iter_events(rootfiles, **kwargs):
    for arrays in iter_arrays(rootfiles, **kwargs):
        for i in range(numentries(arrays)):
            yield get_event(arrays, i)
```
-/

/-- The flattening performed by `iter_events` on a batch sequence.  A batch
with no columns makes `numentries` return `None` and Python's
`range(None)` raise; such batches never occur for real sources, and every
theorem below hypothesises them away, so the `none` branch is unreachable
there. -/
def iter_events_batches {κ ν : Type} (batches : List (Arrays κ ν)) :
    List (List (κ × Option ν)) :=
  batches.flatMap (fun arrays =>
    match numentries arrays with
    | some n => (List.range n).map (fun i => get_event arrays i)
    | none => [])

/-- The number of positions `iter_events` ranges over for one batch (`0`
stands for the `none` no real batch produces). -/
def nument0 {κ ν : Type} (arrays : Arrays κ ν) : Nat :=
  (numentries arrays).getD 0

/-- `iter_events(rootfiles, ...)`: flatten the batches of `iter_arrays` into
per-position records, in batch order then position order. -/
def iter_events {F κ ν : Type} (ti : F → Option Int → List (Arrays κ ν))
    (cnt : Arrays κ ν → Nat) (rootfiles : List F) (nmax : Option Int) :
    List (List (κ × Option ν)) :=
  iter_events_batches (iter_arrays ti cnt rootfiles nmax)

/-!
## Tree locator: `_iter_trees` and `find_tree`

```python
def _iter_trees(tdir, prefix=""):
    for key, value in tdir.items():
        key = key.decode().split(";")[0]
        if hasattr(value, "numbranches"):
            yield prefix + key, value
        elif hasattr(value, "items"):
            yield from _iter_trees(value, prefix=prefix + key + "/")

def find_tree(tdir):
    if isinstance(tdir, str):
        tdir = uproot.open(tdir)
    for path, tree in _iter_trees(tdir):
        logger.info("Using tree %s", path)
        return path, tree
    else:
        raise Exception("Could not find any tree-like object in {}".format(tdir))
```

A ROOT directory entry is modelled by `RObj`: whether it exposes
`numbranches` (the table capability `hasattr(value, "numbranches")`),
whether it exposes `items` (the nested-items capability), and its child
entries (only meaningful when it has `items`).  Raw byte keys are modelled by
their decoded text (`key.decode()` is a bijection onto the decoded strings);
the `;cycle` stripping is modelled explicitly. -/

/-- A ROOT-directory-like object: the `numbranches` capability, the `items`
capability, and the child entries exposed through `items`. -/
inductive RObj : Type where
  | mk (has_numbranches : Bool) (has_items : Bool) (entries : List (String × RObj)) : RObj

/-- Whether an object exposes the `numbranches` capability. -/
def RObj.numbranches : RObj → Bool
  | .mk b _ _ => b

/-- Whether an object exposes the `items` capability. -/
def RObj.items : RObj → Bool
  | .mk _ b _ => b

/-- The child entries of an object. -/
def RObj.entries : RObj → List (String × RObj)
  | .mk _ _ es => es

/-- Python `s.endswith(post)`.  String operations are modelled over the
string's character list throughout (Lean's native `String` primitives do not
reduce in the kernel). -/
def pyEndsWith (s post : String) : Bool :=
  post.data.isSuffixOf s.data

/-- Python `c in s` for a one-character needle `c`. -/
def pyContainsChar (s : String) (c : Char) : Bool :=
  s.data.contains c

/-- `key.decode().split(";")[0]`: everything before the first `;` (the whole
key when no `;` occurs). -/
def stripCycle (key : String) : String :=
  String.mk (key.data.takeWhile (fun c => c ≠ ';'))

mutual

/-- `_iter_trees(tdir, prefix)` over the entry list of `tdir`, as the list of
all `(path, handle)` pairs the generator yields, in yield order. -/
def iter_trees_list (pre : String) : List (String × RObj) → List (String × RObj)
  | [] => []
  | (key, v) :: rest =>
      iter_trees_entry pre (stripCycle key) v ++ iter_trees_list pre rest

/-- The body of `_iter_trees` for one entry `(key, value)` (with the key
already decoded and stripped): yield it if it has `numbranches`, recurse if it
has `items`, otherwise ignore it. -/
def iter_trees_entry (pre k : String) : RObj → List (String × RObj)
  | .mk true hi es => [(pre ++ k, .mk true hi es)]
  | .mk false true es => iter_trees_list (pre ++ k ++ "/") es
  | .mk false false _ => []

end

/-- `find_tree(tdir)`: the first pair `_iter_trees` yields, or the
"no tree-like object" error naming the container (`name` stands for Python's
`"{}".format(tdir)`). -/
def find_tree (name : String) (tdir : List (String × RObj)) :
    Except String (String × RObj) :=
  match iter_trees_list "" tdir with
  | p :: _ => .ok p
  | [] => .error ("Could not find any tree-like object in " ++ name)

mutual

/-- Spec-side predicate, for the failure characterisation: does any entry with
the `numbranches` capability exist anywhere in the hierarchy? -/
def containsTree : List (String × RObj) → Bool
  | [] => false
  | (_, v) :: rest => entryHasTree v || containsTree rest

/-- Whether one entry value is a table or a nested container holding one. -/
def entryHasTree : RObj → Bool
  | .mk true _ _ => true
  | .mk false true es => containsTree es
  | .mk false false _ => false

end

/-!
## `format_rootfiles`

```python
def format_rootfiles(rootfiles):
    try:
        if rootfiles.endswith(".root"):
            if seutils.path.has_protocol(rootfiles) and "*" in rootfiles:
                rootfiles = seutils.ls_wildcard(rootfiles)
            else:
                rootfiles = [rootfiles]
    except AttributeError:
        pass
    return rootfiles
```

The argument is either a Python string or a list of strings; on a list,
`.endswith` raises `AttributeError`, which is swallowed, and the list is
returned unchanged.  `seutils.path.has_protocol` and `seutils.ls_wildcard`
are external collaborators, passed in as functions. -/

/-- A Python value that is either a string or a list of strings. -/
inductive PyStrOrList : Type where
  | str (s : String) : PyStrOrList
  | lst (l : List String) : PyStrOrList
deriving DecidableEq, Repr

/-- `format_rootfiles(rootfiles)`. -/
def format_rootfiles (has_protocol : String → Bool) (ls_wildcard : String → List String) :
    PyStrOrList → PyStrOrList
  | .str s =>
      if pyEndsWith s ".root" then
        if has_protocol s && pyContainsChar s '*' then .lst (ls_wildcard s)
        else .lst [s]
      else .str s
  | .lst l => .lst l

/-!
## Helper definitions and lemmas shared by the claims
-/

/-- Total record count of a list of batches. -/
def sumcnt {B : Type} (cnt : B → Nat) (l : List B) : Nat :=
  (l.map cnt).sum

/-- `pyround` below the half-way point rounds down. -/
lemma pyround_eq_floor {q : ℚ} (h : q - ⌊q⌋ < 1/2) : pyround q = ⌊q⌋ := by
  unfold pyround
  rw [if_pos h]

lemma sumcnt_nil {B : Type} (cnt : B → Nat) : sumcnt cnt ([] : List B) = 0 := rfl

lemma sumcnt_cons {B : Type} (cnt : B → Nat) (b : B) (l : List B) :
    sumcnt cnt (b :: l) = cnt b + sumcnt cnt l := rfl

lemma sumcnt_append {B : Type} (cnt : B → Nat) (l₁ l₂ : List B) :
    sumcnt cnt (l₁ ++ l₂) = sumcnt cnt l₁ + sumcnt cnt l₂ := by
  simp [sumcnt]

/-- The batches yielded by the capped inner loop are batches of its input. -/
lemma iter_file_subset {B : Type} (cnt : B → Nat) :
    ∀ (L : List B) (nt : Int) (b : B), b ∈ (iter_file cnt L nt).1 → b ∈ L := by
  intro L
  induction L with
  | nil => intro nt b hb; simp [iter_file] at hb
  | cons x rest ih =>
      intro nt b hb
      simp only [iter_file] at hb
      by_cases hc : nt - (cnt x : Int) ≤ 0
      · simp [hc] at hb; simp [hb]
      · simp [hc] at hb
        rcases hb with hb | hb
        · simp [hb]
        · exact List.mem_cons_of_mem _ (ih _ _ hb)

/-- Every batch `iter_arrays_go` yields came, whole, from some call of the
column-batch source on one of the files. -/
lemma iter_arrays_go_mem {F B : Type} (ti : F → Option Int → List B) (cnt : B → Nat)
    (nmax : Option Int) :
    ∀ (fs : List F) (nt : Int) (b : B), b ∈ iter_arrays_go ti cnt nmax fs nt →
      ∃ f ∈ fs, ∃ h, b ∈ ti f h := by
  intro fs
  induction fs with
  | nil => intro nt b hb; simp [iter_arrays_go] at hb
  | cons f fs ih =>
      intro nt b hb
      simp only [iter_arrays_go] at hb
      by_cases hf : falsy nmax
      · simp [hf] at hb
        rcases hb with hb | hb
        · exact ⟨f, List.mem_cons_self _ _, nmax, hb⟩
        · obtain ⟨f', hf', h, hb⟩ := ih _ _ hb
          exact ⟨f', List.mem_cons_of_mem _ hf', h, hb⟩
      · simp [hf] at hb
        by_cases hs : (iter_file cnt (ti f (some nt)) nt).2.2
        · simp [hs] at hb
          exact ⟨f, List.mem_cons_self _ _, some nt, iter_file_subset cnt _ _ _ hb⟩
        · simp [hs] at hb
          rcases hb with hb | hb
          · exact ⟨f, List.mem_cons_self _ _, some nt, iter_file_subset cnt _ _ _ hb⟩
          · obtain ⟨f', hf', h, hb⟩ := ih _ _ hb
            exact ⟨f', List.mem_cons_of_mem _ hf', h, hb⟩

/-- `iter_arrays` with a falsy `nmax` concatenates, per file in order, the full
output of the column-batch source called with `entrystop=nmax`. -/
lemma iter_arrays_falsy {F B : Type} (ti : F → Option Int → List B) (cnt : B → Nat)
    (nmax : Option Int) (hf : falsy nmax) :
    ∀ (fs : List F) (nt : Int),
      iter_arrays_go ti cnt nmax fs nt = fs.flatMap (fun f => ti f nmax) := by
  intro fs
  induction fs with
  | nil => intro nt; simp [iter_arrays_go]
  | cons f fs ih => intro nt; simp [iter_arrays_go, hf, ih]

/-- The capped inner loop when the file's batches stay below the remaining
budget: everything is yielded, the budget drops by the file's total, and the
`return` is not reached. -/
lemma iter_file_all {B : Type} (cnt : B → Nat) :
    ∀ (L : List B) (nt : Nat), 0 < nt → sumcnt cnt L < nt →
      iter_file cnt L (nt : Int) = (L, ((nt - sumcnt cnt L : Nat) : Int), false) := by
  intro L
  induction L with
  | nil => intro nt h0 hs; simp [iter_file, sumcnt]
  | cons b rest ih =>
      intro nt h0 hs
      rw [sumcnt_cons] at hs
      have hb : cnt b < nt := by omega
      have hc : ¬ ((nt : Int) - (cnt b : Int) ≤ 0) := by omega
      simp only [iter_file, if_neg hc]
      have hcast : (nt : Int) - (cnt b : Int) = ((nt - cnt b : Nat) : Int) := by omega
      rw [hcast, ih (nt - cnt b) (by omega) (by omega)]
      rw [sumcnt_cons]
      refine Prod.ext rfl (Prod.ext ?_ rfl)
      simp only
      omega

/-- The capped inner loop when the file's batches reach the remaining budget:
the yield is the prefix of the batch list through the first batch that takes
the running total to the budget or beyond, and the `return` is reached
(`true`).  All but the last yielded batch total strictly below the budget; the
last takes the total to the budget or beyond. -/
lemma iter_file_stop {B : Type} (cnt : B → Nat) :
    ∀ (L : List B) (nt : Nat), 0 < nt → nt ≤ sumcnt cnt L →
      ∃ ys last nt',
        iter_file cnt L (nt : Int) = (ys ++ [last], nt', true) ∧
        sumcnt cnt ys < nt ∧ nt ≤ sumcnt cnt ys + cnt last := by
  intro L
  induction L with
  | nil =>
      intro nt h0 hs
      rw [sumcnt_nil] at hs
      omega
  | cons b rest ih =>
      intro nt h0 hs
      rw [sumcnt_cons] at hs
      by_cases hc : (nt : Int) - (cnt b : Int) ≤ 0
      · refine ⟨[], b, (nt : Int) - (cnt b : Int), ?_, ?_, ?_⟩
        · simp [iter_file, hc]
        · rw [sumcnt_nil]; omega
        · rw [sumcnt_nil]; omega
      · have hb : cnt b < nt := by omega
        have hrest : nt - cnt b ≤ sumcnt cnt rest := by omega
        obtain ⟨ys, last, nt', heq, h1, h2⟩ := ih (nt - cnt b) (by omega) hrest
        have hcast : (nt : Int) - (cnt b : Int) = ((nt - cnt b : Nat) : Int) := by omega
        refine ⟨b :: ys, last, nt', ?_, ?_, ?_⟩
        · simp only [iter_file, if_neg hc, hcast, heq]
          rw [if_neg (show ¬ (((nt - cnt b : Nat) : Int) ≤ 0) by omega)]
          rw [List.cons_append]
        · rw [sumcnt_cons]; omega
        · rw [sumcnt_cons]; omega

/-- The capped outer loop: with a positive remaining budget that the remaining
files can cover, the yield is nonempty, all but its last batch total strictly
below the budget, and the last batch takes the total to the budget or beyond
(after which iteration stops). -/
lemma iter_arrays_go_capped {F B : Type} (ti : F → Option Int → List B) (cnt : B → Nat)
    (kmax : Int) (hkm : falsy (some kmax) = false)
    (hsrc : ∀ f (n : Nat), 0 < n →
      min n (sumcnt cnt (ti f none)) ≤ sumcnt cnt (ti f (some (n : Int)))) :
    ∀ (fs : List F) (nt : Nat), 0 < nt →
      nt ≤ (fs.map (fun f => sumcnt cnt (ti f none))).sum →
      ∃ ys last, iter_arrays_go ti cnt (some kmax) fs (nt : Int) = ys ++ [last] ∧
        sumcnt cnt ys < nt ∧ nt ≤ sumcnt cnt ys + cnt last := by
  intro fs
  induction fs with
  | nil =>
      intro nt h0 htot
      simp at htot
      omega
  | cons f fs ih =>
      intro nt h0 htot
      simp only [List.map_cons, List.sum_cons] at htot
      by_cases hcase : nt ≤ sumcnt cnt (ti f (some (nt : Int)))
      · obtain ⟨ys, last, nt', heq, h1, h2⟩ :=
          iter_file_stop cnt (ti f (some (nt : Int))) nt h0 hcase
        refine ⟨ys, last, ?_, h1, h2⟩
        simp [iter_arrays_go, hkm, heq]
      · push_neg at hcase
        have hall := iter_file_all cnt (ti f (some (nt : Int))) nt h0 hcase
        have hmin := hsrc f nt h0
        have hsz : sumcnt cnt (ti f none) ≤ sumcnt cnt (ti f (some (nt : Int))) := by
          rcases Nat.le_total nt (sumcnt cnt (ti f none)) with hle | hle
          · rw [min_eq_left hle] at hmin; omega
          · rw [min_eq_right hle] at hmin; omega
        obtain ⟨ys', last, heq', h1', h2'⟩ :=
          ih (nt - sumcnt cnt (ti f (some (nt : Int)))) (by omega) (by omega)
        refine ⟨ti f (some (nt : Int)) ++ ys', last, ?_, ?_, ?_⟩
        · simp only [iter_arrays_go, hkm, Bool.false_eq_true, if_false, hall, heq']
          rw [List.append_assoc]
        · rw [sumcnt_append]; omega
        · rw [sumcnt_append]; omega

/-- `iter_arrays_go` consults the column-batch source only at its own files:
two sources that agree on the files of the list produce the same yield. -/
lemma iter_arrays_go_congr {F B : Type} (ti₁ ti₂ : F → Option Int → List B) (cnt : B → Nat)
    (nmax : Option Int) :
    ∀ (fs : List F) (nt : Int), (∀ f ∈ fs, ∀ h, ti₁ f h = ti₂ f h) →
      iter_arrays_go ti₁ cnt nmax fs nt = iter_arrays_go ti₂ cnt nmax fs nt := by
  intro fs
  induction fs with
  | nil => intro nt _; rfl
  | cons f fs ih =>
      intro nt hagree
      have hf : ∀ h, ti₁ f h = ti₂ f h := hagree f (List.mem_cons_self _ _)
      have hfs : ∀ g ∈ fs, ∀ h, ti₁ g h = ti₂ g h :=
        fun g hg => hagree g (List.mem_cons_of_mem _ hg)
      by_cases hb : falsy nmax
      · simp only [iter_arrays_go, hb, if_true, hf]
        rw [ih _ hfs]
      · simp only [iter_arrays_go, hb, Bool.false_eq_true, if_false, hf]
        rw [ih _ hfs]

/-- Same statement for `iter_arrays`. -/
lemma iter_arrays_congr {F B : Type} (ti₁ ti₂ : F → Option Int → List B) (cnt : B → Nat)
    (fs : List F) (nmax : Option Int)
    (hagree : ∀ f ∈ fs, ∀ h, ti₁ f h = ti₂ f h) :
    iter_arrays ti₁ cnt fs nmax = iter_arrays ti₂ cnt fs nmax := by
  unfold iter_arrays
  exact iter_arrays_go_congr ti₁ ti₂ cnt nmax fs _ hagree

/-- The weighted loop is the concatenation, in weight order, of the budgeted
runs of the non-zero groups, with zero groups contributing nothing. -/
lemma weighted_loop_eq_flatMap {F B : Type} (ti : F → Option Int → List B) (cnt : B → Nat) :
    ∀ l : List (Int × List F),
      weighted_loop ti cnt l
        = l.flatMap (fun p => if p.1 = 0 then [] else iter_arrays ti cnt p.2 (some p.1)) := by
  intro l
  induction l with
  | nil => rfl
  | cons p rest ih => cases p with
      | mk n rfs => simp only [weighted_loop, ih, List.flatMap_cons]

/-- The weighted loop consults the column-batch source only at files that
belong to a group with a non-zero sub-budget. -/
lemma weighted_loop_congr {F B : Type} (ti₁ ti₂ : F → Option Int → List B) (cnt : B → Nat) :
    ∀ l : List (Int × List F),
      (∀ f h, (∃ p ∈ l, p.1 ≠ 0 ∧ f ∈ p.2) → ti₁ f h = ti₂ f h) →
      weighted_loop ti₁ cnt l = weighted_loop ti₂ cnt l := by
  intro l
  induction l with
  | nil => intro _; rfl
  | cons p rest ih =>
      intro hagree
      have hrest : ∀ f h, (∃ q ∈ rest, q.1 ≠ 0 ∧ f ∈ q.2) → ti₁ f h = ti₂ f h :=
        fun f h ⟨q, hq, hset⟩ => hagree f h ⟨q, List.mem_cons_of_mem _ hq, hset⟩
      cases p with
      | mk n rfs =>
          by_cases hn : n = 0
          · simp [weighted_loop, hn, ih hrest]
          · simp only [weighted_loop, if_neg hn, ih hrest]
            rw [iter_arrays_congr ti₁ ti₂ cnt rfs (some n)
              (fun f hf h => hagree f h ⟨(n, rfs), List.mem_cons_self _ _, hn, hf⟩)]

lemma iter_events_batches_cons {κ ν : Type} (b : Arrays κ ν) (bs : List (Arrays κ ν)) :
    iter_events_batches (b :: bs)
      = (List.range (nument0 b)).map (fun i => get_event b i) ++ iter_events_batches bs := by
  simp only [iter_events_batches, List.flatMap_cons]
  cases hb : numentries b <;> simp [nument0, hb]

/-- `iter_events` produces exactly one record per position of each batch. -/
lemma iter_events_batches_length {κ ν : Type} :
    ∀ bs : List (Arrays κ ν),
      (iter_events_batches bs).length = (bs.map nument0).sum := by
  intro bs
  induction bs with
  | nil => rfl
  | cons b bs ih =>
      rw [iter_events_batches_cons]
      simp [ih]

/-- The record at flat position `(records of batches before p) + i` is the
record of batch `p` at position `i`: batch order first, position order within
a batch. -/
lemma iter_events_batches_get {κ ν : Type} :
    ∀ (bs : List (Arrays κ ν)) (p : Nat) (hp : p < bs.length) (i : Nat),
      i < nument0 (bs.get ⟨p, hp⟩) →
      (iter_events_batches bs).get? (((bs.take p).map nument0).sum + i)
        = some (get_event (bs.get ⟨p, hp⟩) i) := by
  intro bs
  induction bs with
  | nil => intro p hp; simp at hp
  | cons b bs ih =>
      intro p hp i hi
      cases p with
      | zero =>
          rw [iter_events_batches_cons]
          simp only [List.take_zero, List.map_nil, List.sum_nil, Nat.zero_add]
          simp only [List.get] at hi
          rw [List.get?_append (by simpa using hi)]
          simp [List.get?_map]
          exact ⟨i, by simp [List.getElem?_range hi], rfl⟩
      | succ p =>
          rw [iter_events_batches_cons]
          simp only [List.take_succ_cons, List.map_cons, List.sum_cons]
          have hlen : ((List.range (nument0 b)).map (fun i => get_event b i)).length
              = nument0 b := by simp
          rw [List.get?_append_right (by omega)]
          rw [hlen]
          have harith : nument0 b + ((bs.take p).map nument0).sum + i - nument0 b
              = ((bs.take p).map nument0).sum + i := by omega
          rw [harith]
          exact ih p (by simpa using hp) i (by simpa using hi)

/-- `_iter_trees` respects the container's entry order: its yield for a
concatenation of entry lists is the concatenation of the yields. -/
lemma iter_trees_list_append (pre : String) :
    ∀ l₁ l₂ : List (String × RObj),
      iter_trees_list pre (l₁ ++ l₂)
        = iter_trees_list pre l₁ ++ iter_trees_list pre l₂ := by
  intro l₁
  induction l₁ with
  | nil => intro l₂; simp [iter_trees_list]
  | cons e rest ih =>
      intro l₂
      cases e with
      | mk key v =>
          rw [List.cons_append, iter_trees_list, iter_trees_list, ih, List.append_assoc]

/-- Everything `_iter_trees` yields is a table (it exposes `numbranches`) and
its path extends the prefix the traversal was started with. -/
lemma iter_trees_list_sound :
    ∀ (pre : String) (l : List (String × RObj)), ∀ p ∈ iter_trees_list pre l,
      p.2.numbranches = true ∧ ∃ r, p.1 = pre ++ r := by
  refine iter_trees_list.induct
    (fun pre l => ∀ p ∈ iter_trees_list pre l,
      p.2.numbranches = true ∧ ∃ r, p.1 = pre ++ r)
    (fun pre k v => ∀ p ∈ iter_trees_entry pre k v,
      p.2.numbranches = true ∧ ∃ r, p.1 = pre ++ r)
    ?_ ?_ ?_ ?_ ?_
  · intro pre k hi es p hp
    rw [iter_trees_entry] at hp
    rcases List.mem_singleton.mp hp with rfl
    exact ⟨rfl, k, rfl⟩
  · intro pre k es ih p hp
    rw [iter_trees_entry] at hp
    obtain ⟨hb, r, hr⟩ := ih p hp
    refine ⟨hb, k ++ "/" ++ r, ?_⟩
    rw [hr]
    simp [String.append_assoc]
  · intro pre k es p hp
    rw [iter_trees_entry] at hp
    simp at hp
  · intro pre p hp
    rw [iter_trees_list] at hp
    simp at hp
  · intro pre key v rest ihv ihrest p hp
    rw [iter_trees_list] at hp
    rcases List.mem_append.mp hp with h | h
    · exact ihv p h
    · exact ihrest p h

/-- `_iter_trees` yields nothing exactly when no table-like entry exists
anywhere in the hierarchy. -/
lemma iter_trees_list_nil_iff :
    ∀ (pre : String) (l : List (String × RObj)),
      iter_trees_list pre l = [] ↔ containsTree l = false := by
  refine iter_trees_list.induct
    (fun pre l => iter_trees_list pre l = [] ↔ containsTree l = false)
    (fun pre k v => iter_trees_entry pre k v = [] ↔ entryHasTree v = false)
    ?_ ?_ ?_ ?_ ?_
  · intro pre k hi es
    rw [iter_trees_entry, entryHasTree]
    simp
  · intro pre k es ih
    rw [iter_trees_entry, entryHasTree]
    exact ih
  · intro pre k es
    rw [iter_trees_entry, entryHasTree]
    simp
  · intro pre
    rw [iter_trees_list, containsTree]
    simp
  · intro pre key v rest ihv ihrest
    rw [iter_trees_list, containsTree]
    simp only [List.append_eq_nil, Bool.or_eq_false_iff]
    exact and_congr ihv ihrest

/-!
## Claims
-/

/-- Claim C1: with a set budget `k > 0`, `iter_arrays` yields only whole
batches — each yielded batch is one that the column-batch source produced for
one of the files, forwarded unsplit and untruncated.  Provided the source
honours the `entrystop` hint at least up to `min(hint, file content)` (its
chunking may overshoot) and the sources together hold at least `k` records,
iteration stops immediately after the first yielded batch that brings the
cumulative yielded record count to `k` or beyond — every yielded batch but
the last leaves the total strictly below `k` — so the total yielded record
count is at least `k` and strictly less than `k` plus the record count of the
last yielded batch. -/
theorem claim_C1 {F B : Type} (ti : F → Option Int → List B) (cnt : B → Nat)
    (rootfiles : List F) (k : Nat) (hk : 0 < k)
    (hsrc : ∀ f (n : Nat), 0 < n →
      min n (sumcnt cnt (ti f none)) ≤ sumcnt cnt (ti f (some (n : Int))))
    (htot : k ≤ (rootfiles.map (fun f => sumcnt cnt (ti f none))).sum) :
    (∀ b ∈ iter_arrays ti cnt rootfiles (some (k : Int)),
      ∃ f ∈ rootfiles, ∃ h, b ∈ ti f h) ∧
    ∃ ys last, iter_arrays ti cnt rootfiles (some (k : Int)) = ys ++ [last] ∧
      sumcnt cnt ys < k ∧
      k ≤ sumcnt cnt (ys ++ [last]) ∧
      sumcnt cnt (ys ++ [last]) < k + cnt last := by
  have hkm : falsy (some (k : Int)) = false := by
    simp [falsy]
    omega
  constructor
  · intro b hb
    exact iter_arrays_go_mem ti cnt (some (k : Int)) rootfiles _ b hb
  · obtain ⟨ys, last, heq, h1, h2⟩ :=
      iter_arrays_go_capped ti cnt (k : Int) hkm hsrc rootfiles k hk htot
    refine ⟨ys, last, ?_, h1, ?_, ?_⟩
    · unfold iter_arrays
      simpa using heq
    · rw [sumcnt_append, sumcnt_cons, sumcnt_nil]
      omega
    · rw [sumcnt_append, sumcnt_cons, sumcnt_nil]
      omega

/-- Witness for C1: two files whose source holds two batches of 2 records
each (4 per file, 8 in total, the hint ignored), budget `k = 5`: the yield is
nonempty, all but its last batch total below 5, and the total reaches 5 but
stays below 5 plus the last batch's record count. -/
theorem claim_C1_witness :
    (∀ b ∈ iter_arrays (fun (_ : Nat) (_ : Option Int) => ([2, 2] : List Nat)) id
        [0, 1] (some ((5 : Nat) : Int)),
      ∃ f ∈ [0, 1], ∃ _h : Option Int, b ∈ [2, 2]) ∧
    ∃ ys last, iter_arrays (fun (_ : Nat) (_ : Option Int) => ([2, 2] : List Nat)) id
        [0, 1] (some ((5 : Nat) : Int)) = ys ++ [last] ∧
      sumcnt id ys < 5 ∧
      5 ≤ sumcnt id (ys ++ [last]) ∧
      sumcnt id (ys ++ [last]) < 5 + id last :=
  claim_C1 (fun _ _ => [2, 2]) id [0, 1] 5 (by decide)
    (fun _ n _ => min_le_right n (sumcnt id [2, 2])) (by decide)

/-- Claim C5: the tree locator searches the container's entries depth-first
in reported order: each entry key is stripped of any trailing `;cycle` suffix
before use (e.g. `Events;1` becomes `Events`); an entry is yielded exactly
when it exposes the `numbranches` capability and is recursed into exactly
when it instead exposes `items`, with the name prefix extended as
`parent/child`; the traversal distributes over entry concatenation (reported
order), every yield is a table whose path extends the starting prefix, and
`find_tree` returns the first `(path, handle)` pair of the traversal when any
table exists, and otherwise fails with the "no tree-like object" error
naming the container. -/
theorem claim_C5 :
    (∀ (pre key : String) (v : RObj) (rest : List (String × RObj)),
        iter_trees_list pre ((key, v) :: rest)
          = iter_trees_entry pre (stripCycle key) v ++ iter_trees_list pre rest)
  ∧ stripCycle "Events;1" = "Events"
  ∧ (∀ (pre k : String) (hn hi : Bool) (es : List (String × RObj)),
        iter_trees_entry pre k (.mk hn hi es)
          = if hn then [(pre ++ k, RObj.mk hn hi es)]
            else if hi then iter_trees_list (pre ++ k ++ "/") es
            else [])
  ∧ (∀ (pre : String) (l₁ l₂ : List (String × RObj)),
        iter_trees_list pre (l₁ ++ l₂)
          = iter_trees_list pre l₁ ++ iter_trees_list pre l₂)
  ∧ (∀ (pre : String) (l : List (String × RObj)), ∀ p ∈ iter_trees_list pre l,
        p.2.numbranches = true ∧ ∃ r, p.1 = pre ++ r)
  ∧ (∀ (name : String) (entries : List (String × RObj)),
        (containsTree entries = true →
          ∃ p, find_tree name entries = .ok p
            ∧ (iter_trees_list "" entries).head? = some p)
      ∧ (containsTree entries = false →
          find_tree name entries
            = .error ("Could not find any tree-like object in " ++ name))) := by
  refine ⟨?_, ?_, ?_, iter_trees_list_append, iter_trees_list_sound, ?_⟩
  · intro pre key v rest
    rw [iter_trees_list]
  · simp [stripCycle, List.takeWhile]
  · intro pre k hn hi es
    cases hn <;> cases hi <;> simp [iter_trees_entry]
  · intro name entries
    constructor
    · intro hc
      have hne : iter_trees_list "" entries ≠ [] := by
        rw [Ne, iter_trees_list_nil_iff]
        simp [hc]
      rw [find_tree]
      cases h : iter_trees_list "" entries with
      | nil => exact absurd h hne
      | cons p rest => exact ⟨p, rfl, rfl⟩
    · intro hc
      rw [find_tree]
      rw [(iter_trees_list_nil_iff "" entries).mpr hc]

/-- Witness for C5 on a concrete container: a non-table, non-container entry
is ignored, a nested directory entry `dir;1` is recursed into with prefix
`dir/`, and the table `tree;2` inside is found at path `dir/tree`; a
container holding only the junk entry fails with the error naming it. -/
theorem claim_C5_witness :
    containsTree [("junk", RObj.mk false false []),
        ("dir;1", RObj.mk false true [("tree;2", RObj.mk true false [])])] = true
  ∧ (∃ p, find_tree "myfile.root"
        [("junk", RObj.mk false false []),
         ("dir;1", RObj.mk false true [("tree;2", RObj.mk true false [])])] = .ok p
      ∧ (iter_trees_list ""
          [("junk", RObj.mk false false []),
           ("dir;1", RObj.mk false true [("tree;2", RObj.mk true false [])])]).head?
        = some p)
  ∧ find_tree "empty.root" [("junk", RObj.mk false false [])]
      = .error ("Could not find any tree-like object in " ++ "empty.root") := by
  have hc : containsTree [("junk", RObj.mk false false []),
      ("dir;1", RObj.mk false true [("tree;2", RObj.mk true false [])])] = true := by
    simp [containsTree, entryHasTree]
  have hc0 : containsTree [("junk", RObj.mk false false [])] = false := by
    simp [containsTree, entryHasTree]
  exact ⟨hc,
    (claim_C5.2.2.2.2.2 "myfile.root" _).1 hc,
    (claim_C5.2.2.2.2.2 "empty.root" _).2 hc0⟩

/-- Claim C6: with matching lengths, `iter_arrays_weighted` yields, in
weight-vector order, the concatenation over the zipped (sub-budget, group)
pairs of: nothing for a group whose sub-budget is zero (the `continue`), and
the batches of the budgeted `iter_arrays` run with that sub-budget as `nmax`
for every other group, forwarded unchanged.  Moreover the column-batch source
is never consulted on a file unless it belongs to a group with a non-zero
sub-budget: two sources agreeing on the non-zero groups' files give identical
results, so no file of a skipped group is opened. -/
theorem claim_C6 {F B : Type} (ti : F → Option Int → List B) (cnt : B → Nat)
    (N : Int) (crosssections : List ℚ) (rootfiles : List (List F))
    (hlen : crosssections.length = rootfiles.length) :
    iter_arrays_weighted ti cnt N crosssections rootfiles
      = .ok (((subbudgets N crosssections).zip rootfiles).flatMap
          (fun p => if p.1 = 0 then [] else iter_arrays ti cnt p.2 (some p.1)))
    ∧ ∀ ti' : F → Option Int → List B,
        (∀ f h, (∃ p ∈ (subbudgets N crosssections).zip rootfiles, p.1 ≠ 0 ∧ f ∈ p.2) →
          ti f h = ti' f h) →
        iter_arrays_weighted ti cnt N crosssections rootfiles
          = iter_arrays_weighted ti' cnt N crosssections rootfiles := by
  constructor
  · simp only [iter_arrays_weighted, hlen]
    rw [if_neg (by omega)]
    rw [weighted_loop_eq_flatMap]
    rfl
  · intro ti' hagree
    simp only [iter_arrays_weighted, hlen]
    rw [if_neg (by omega), if_neg (by omega)]
    exact congrArg Except.ok
      (weighted_loop_congr ti ti' cnt ((subbudgets N crosssections).zip rootfiles) hagree)

/-- Witness for C6: two groups, weights `[1, 0]`, `N = 4`: sub-budgets
`[4, 0]`, so the second group is skipped entirely and the first delegates to
`iter_arrays` with cap 4. -/
theorem claim_C6_witness :
    iter_arrays_weighted (fun (f : Nat) (_ : Option Int) => [f]) (fun _ => 3)
        4 [1, 0] [[10], [20]]
      = .ok (((subbudgets 4 [1, 0]).zip [[10], [20]]).flatMap
          (fun p => if p.1 = 0 then []
            else iter_arrays (fun (f : Nat) (_ : Option Int) => [f]) (fun _ => 3)
              p.2 (some p.1))) :=
  (claim_C6 (fun f _ => [f]) (fun _ => 3) 4 [1, 0] [[10], [20]] rfl).1

/-- Claim C9: `numentries` of a batch with no columns is `None` (the Python
`for` loop falls through and the function returns without raising); on a batch
with at least one column it is the length of the batch's first column. -/
theorem claim_C9 {κ ν : Type} (arrays : Arrays κ ν) :
    numentries arrays = arrays.head?.map (fun kv => kv.2.length) := by
  cases arrays with
  | nil => rfl
  | cons kv rest => rfl

/-- Claim C10: with `nmax = 0` the truthiness test `not (nmax)` sends
`iter_arrays` into the uncapped branch: every source file is processed in
input order, each with `entrystop=0` passed to the column-batch source, and
iteration does not terminate before the sources are exhausted — the yield is
the in-order concatenation of the source's output for every file. -/
theorem claim_C10 {F B : Type} (ti : F → Option Int → List B) (cnt : B → Nat)
    (rootfiles : List F) :
    iter_arrays ti cnt rootfiles (some 0) = rootfiles.flatMap (fun f => ti f (some 0)) := by
  unfold iter_arrays
  exact iter_arrays_falsy ti cnt (some 0) (by simp [falsy]) rootfiles _

/-- Claim C4: with `nmax` unset, `iter_arrays` forwards every batch of every
source file unmodified and in input order until the sources are exhausted, so
the yielded record counts sum to exactly the total record count the source
reports for the files. -/
theorem claim_C4 {F B : Type} (ti : F → Option Int → List B) (cnt : B → Nat)
    (rootfiles : List F) :
    iter_arrays ti cnt rootfiles none = rootfiles.flatMap (fun f => ti f none) ∧
    sumcnt cnt (iter_arrays ti cnt rootfiles none)
      = (rootfiles.map (fun f => sumcnt cnt (ti f none))).sum := by
  have h : iter_arrays ti cnt rootfiles none = rootfiles.flatMap (fun f => ti f none) :=
    iter_arrays_falsy ti cnt none rfl rootfiles _
  refine ⟨h, ?_⟩
  rw [h]
  clear h
  induction rootfiles with
  | nil => rfl
  | cons f fs ih => simp [sumcnt_append, ih]

/-- Claim C7: `iter_arrays_weighted` with weight and source-group lists of
different lengths fails with the length-mismatch error; the result is this
error for every possible column-batch source, so no file is consulted and no
batch is yielded. -/
theorem claim_C7 {F B : Type} (cnt : B → Nat) (N : Int)
    (crosssections : List ℚ) (rootfiles : List (List F))
    (hlen : crosssections.length ≠ rootfiles.length) :
    ∀ ti : F → Option Int → List B,
      iter_arrays_weighted ti cnt N crosssections rootfiles
        = .error "Length of cross sections should be equal to number of passed rootfiles" := by
  intro ti
  simp [iter_arrays_weighted, hlen]

/-- Witness for C7 at a concrete mismatched input. -/
theorem claim_C7_witness :
    iter_arrays_weighted (fun (_ : Unit) (_ : Option Int) => ([] : List Unit))
        (fun _ => 0) 10 [1] []
      = .error "Length of cross sections should be equal to number of passed rootfiles" :=
  claim_C7 (fun _ => 0) 10 [1] [] (by simp) (fun _ _ => [])

/-- Claim C8: provided every batch the source yields reports its record count
(`numentries b = some (cnt b)`), `iter_events` yields exactly one record per
batch position — its length is the total record count of the batches
`iter_arrays` produced — and the record at flat position
`(records of batches before p) + i` (for `i` below batch `p`'s record count)
is `get_event` of batch `p` at position `i`: strict batch order, then
increasing position order within a batch.  Each such record maps every column
name of its batch, in column order, to that column's value at position `i`. -/
theorem claim_C8 {F κ ν : Type} (ti : F → Option Int → List (Arrays κ ν))
    (cnt : Arrays κ ν → Nat) (rootfiles : List F) (nmax : Option Int)
    (hn : ∀ f h, ∀ b ∈ ti f h, numentries b = some (cnt b)) :
    (iter_events ti cnt rootfiles nmax).length
      = sumcnt cnt (iter_arrays ti cnt rootfiles nmax)
    ∧ (∀ (p : Nat) (hp : p < (iter_arrays ti cnt rootfiles nmax).length) (i : Nat),
        i < cnt ((iter_arrays ti cnt rootfiles nmax).get ⟨p, hp⟩) →
        (iter_events ti cnt rootfiles nmax).get?
            (sumcnt cnt ((iter_arrays ti cnt rootfiles nmax).take p) + i)
          = some (get_event ((iter_arrays ti cnt rootfiles nmax).get ⟨p, hp⟩) i))
    ∧ (∀ (b : Arrays κ ν) (i : Nat), (get_event b i).map Prod.fst = b.map Prod.fst) := by
  have hmem : ∀ b ∈ iter_arrays ti cnt rootfiles nmax, nument0 b = cnt b := by
    intro b hb
    obtain ⟨f, _, h, hbf⟩ := iter_arrays_go_mem ti cnt nmax rootfiles _ b hb
    rw [nument0, hn f h b hbf]
    rfl
  refine ⟨?_, ?_, ?_⟩
  · rw [iter_events, iter_events_batches_length, sumcnt,
      List.map_congr_left hmem]
  · intro p hp i hi
    have hmem' : ∀ b ∈ (iter_arrays ti cnt rootfiles nmax).take p, nument0 b = cnt b :=
      fun b hb => hmem b (List.take_subset p _ hb)
    have hi' : i < nument0 ((iter_arrays ti cnt rootfiles nmax).get ⟨p, hp⟩) := by
      rw [hmem _ (List.get_mem _ _ _)]
      exact hi
    have hix := iter_events_batches_get (iter_arrays ti cnt rootfiles nmax) p hp i hi'
    rw [List.map_congr_left hmem'] at hix
    exact hix
  · intro b i
    simp [get_event, List.map_map]

/-- Witness for C8: one file, two batches with a single column `0` holding
`[10, 20, 30]` and `[40, 50]` (record counts 3 and 2), no budget: 5 records
in total; the record at flat position `3 + 1` is batch 1's record at
position 1, i.e. column `0 ↦ 50`. -/
theorem claim_C8_witness :
    (iter_events (fun (_ : Nat) (_ : Option Int) =>
        [[(0, [10, 20, 30])], [(0, [40, 50])]]) nument0 [0] none).length
      = sumcnt nument0 (iter_arrays (fun (_ : Nat) (_ : Option Int) =>
          [[(0, [10, 20, 30])], [(0, [40, 50])]]) nument0 [0] none)
    ∧ (iter_events (fun (_ : Nat) (_ : Option Int) =>
        [[(0, [10, 20, 30])], [(0, [40, 50])]]) nument0 [0] none).get?
          (sumcnt nument0 ((iter_arrays (fun (_ : Nat) (_ : Option Int) =>
            [[(0, [10, 20, 30])], [(0, [40, 50])]]) nument0 [0] none).take 1) + 1)
        = some (get_event ((iter_arrays (fun (_ : Nat) (_ : Option Int) =>
            [[(0, [10, 20, 30])], [(0, [40, 50])]]) nument0 [0] none).get
              ⟨1, by decide⟩) 1) := by
  have h := claim_C8 (fun (_ : Nat) (_ : Option Int) =>
      ([[(0, [10, 20, 30])], [(0, [40, 50])]] : List (Arrays Nat Nat)))
      nument0 [0] none
    (by
      intro f h b hb
      simp at hb
      rcases hb with rfl | rfl <;> rfl)
  exact ⟨h.1, h.2.1 1 (by decide) 1 (by decide)⟩

/-- Counterexample to claim C3: `format_rootfiles` performs no local glob
expansion.  A local wildcard pattern (`'*'` present, no protocol) ending in
`.root` is returned wrapped as-is in a one-element list — the wildcard
character survives into the "expanded" output, so the result is the pattern
itself, not the filesystem-glob matches (a list of concrete paths). -/
theorem claim_C3_counterexample :
    format_rootfiles (fun _ => false) (fun _ => []) (.str "data/a*.root")
        = .lst ["data/a*.root"]
      ∧ pyContainsChar "data/a*.root" '*' = true := by
  constructor
  · decide
  · decide

/-- Claim C3 (amended): `format_rootfiles` maps a single path string ending in
`.root` that does not both bear a protocol and contain `'*'` — in particular
any single concrete local or remote path, but also any *local* wildcard
pattern, which is NOT glob-expanded — to the one-element sequence containing
it verbatim; it expands a remote wildcard (protocol present and `'*'` present)
via the external listing collaborator; it returns a string not ending in
`.root` unchanged; and it passes a bare sequence input through unchanged. -/
theorem claim_C3 (has_protocol : String → Bool) (ls_wildcard : String → List String) :
    (∀ s, pyEndsWith s ".root" = true → (has_protocol s && pyContainsChar s '*') = true →
      format_rootfiles has_protocol ls_wildcard (.str s) = .lst (ls_wildcard s))
  ∧ (∀ s, pyEndsWith s ".root" = true → (has_protocol s && pyContainsChar s '*') = false →
      format_rootfiles has_protocol ls_wildcard (.str s) = .lst [s])
  ∧ (∀ s, pyEndsWith s ".root" = false →
      format_rootfiles has_protocol ls_wildcard (.str s) = .str s)
  ∧ (∀ l, format_rootfiles has_protocol ls_wildcard (.lst l) = .lst l) := by
  refine ⟨?_, ?_, ?_, ?_⟩
  · intro s hs hw; simp [format_rootfiles, hs, hw]
  · intro s hs hw; simp [format_rootfiles, hs, hw]
  · intro s hs; simp [format_rootfiles, hs]
  · intro l; rfl

/-- Witness for the amended C3 on concrete inputs: a remote wildcard, a
concrete path, a non-`.root` string and a bare list. -/
theorem claim_C3_witness :
    format_rootfiles (fun s => "root://".data.isPrefixOf s.data) (fun _ => ["root://x/1.root"])
        (.str "root://x/a*.root") = .lst ["root://x/1.root"]
  ∧ format_rootfiles (fun s => "root://".data.isPrefixOf s.data) (fun _ => ["root://x/1.root"])
        (.str "b.root") = .lst ["b.root"]
  ∧ format_rootfiles (fun s => "root://".data.isPrefixOf s.data) (fun _ => ["root://x/1.root"])
        (.str "b.txt") = .str "b.txt"
  ∧ format_rootfiles (fun s => "root://".data.isPrefixOf s.data) (fun _ => ["root://x/1.root"])
        (.lst ["a.root", "b.root"]) = .lst ["a.root", "b.root"] := by
  have h := claim_C3 (fun s => "root://".data.isPrefixOf s.data) (fun _ => ["root://x/1.root"])
  exact ⟨h.1 "root://x/a*.root" (by decide) (by decide),
    h.2.1 "b.root" (by decide) (by decide),
    h.2.2.1 "b.txt" (by decide), h.2.2.2 ["a.root", "b.root"]⟩

/-- Claim C2: the sub-budget of group `i` in `iter_arrays_weighted` is
`weights[i] / sum(weights) * N`, rounded to the nearest integer (Python's
`round`), computed independently per group; the resulting list is used as the
per-group caps exactly as computed — not renormalised to sum to `N` — and on
`N = 100`, weights `[1,1,1]` the sub-budgets are `[33,33,33]`, whose sum `99`
differs from the requested `100`. -/
theorem claim_C2 :
    (∀ (N : Int) (crosssections : List ℚ) (i : Nat),
      (subbudgets N crosssections).get? i
        = (crosssections.get? i).map
            (fun xs => pyround (xs / crosssections.sum * (N : ℚ))))
  ∧ (∀ {F B : Type} (ti : F → Option Int → List B) (cnt : B → Nat)
        (N : Int) (crosssections : List ℚ) (rootfiles : List (List F)),
      crosssections.length = rootfiles.length →
      iter_arrays_weighted ti cnt N crosssections rootfiles
        = .ok (weighted_loop ti cnt ((subbudgets N crosssections).zip rootfiles)))
  ∧ subbudgets 100 [1, 1, 1] = [33, 33, 33]
  ∧ (subbudgets 100 [1, 1, 1]).sum = 99 := by
  have hfl : ⌊(100 : ℚ) / 3⌋ = 33 := by norm_num
  have hp : pyround ((100 : ℚ) / 3) = 33 := by
    have h2 : (100 : ℚ) / 3 - (⌊(100 : ℚ) / 3⌋ : ℚ) < 1 / 2 := by rw [hfl]; norm_num
    rw [pyround_eq_floor h2, hfl]
  have h3 : subbudgets 100 [1, 1, 1] = [33, 33, 33] := by
    have hsum : ([1, 1, 1] : List ℚ).sum = 3 := by norm_num
    have hp31 : pyround ((3 : ℚ)⁻¹ * 100) = 33 := by
      rw [show ((3 : ℚ)⁻¹ * 100) = 100 / 3 by norm_num]
      exact hp
    simp [subbudgets, hsum, hp31]
  refine ⟨?_, ?_, h3, by rw [h3]; decide⟩
  · intro N cs i
    simp only [subbudgets, List.get?_eq_getElem?, List.getElem?_map]
    cases cs[i]? <;> rfl
  · intro F B ti cnt N cs rfs hlen
    simp [iter_arrays_weighted, subbudgets, hlen]

/-- Witness for C2 at a concrete input: equal weights, `N = 100`, three
single-file groups; the per-index formula at `i = 0` and the delegation with
the unadjusted caps. -/
theorem claim_C2_witness :
    (subbudgets 100 [1, 1, 1]).get? 0
      = (([1, 1, 1] : List ℚ).get? 0).map
          (fun xs => pyround (xs / ([1, 1, 1] : List ℚ).sum * ((100 : Int) : ℚ)))
  ∧ iter_arrays_weighted (fun (_ : Unit) (_ : Option Int) => ([] : List Unit))
        (fun _ => 0) 100 [1, 1, 1] [[()], [()], [()]]
      = .ok (weighted_loop (fun (_ : Unit) (_ : Option Int) => ([] : List Unit))
          (fun _ => 0) ((subbudgets 100 [1, 1, 1]).zip [[()], [()], [()]])) :=
  ⟨claim_C2.1 100 [1, 1, 1] 0,
   claim_C2.2.1 (fun _ _ => []) (fun _ => 0) 100 [1, 1, 1] [[()], [()], [()]] rfl⟩

end Uptools
